import Mathlib

/-!
Shallow embedding of the acegen core: the SMILES vocabulary codec
(`src/acegen/vocabulary/vocabulary.py`), the two `SMILESReward` transforms
(`src/acegen/transforms/reward_transform.py` and `src/examples/ppo/utils.py`),
and the repetition-penalty filter.

Machine floats (numpy float32 / torch tensors) are modelled as `Rat`;
token indices as `Int` (the padding sentinel is `-1`); Python dicts as
association lists with `List.lookup`; Python exceptions as `Except`.
-/

/-- Failures of the vocabulary codec: no tokenizer set (`RuntimeError` in
`encode`), a token missing from `vocab` (`KeyError`, the spec's
`MissingTokenError`), or an index missing from `reversed_vocab`. -/
inductive VocabError where
  | noTokenizer
  | missingToken (t : String)
  | missingIndex (i : Int)
deriving DecidableEq

/-- State of `SMILESVocabulary` (vocabulary.py).  `vocab` is the
token-to-index dict, `reversed_vocab` its inverse, `tokenizer` the pluggable
tokenizer (`None` modelled as `none`). -/
structure SMILESVocabulary where
  start_token : String
  end_token : String
  special_tokens : List String
  additional_chars : List String
  chars : List String
  vocab_size : Nat
  vocab : List (String × Int)
  reversed_vocab : List (Int × String)
  max_length : Nat
  tokenizer : Option (String → List String)

/-- `SMILESVocabulary.__init__`. -/
def SMILESVocabulary.init (start_token : String) (start_token_index : Int)
    (end_token : String) (end_token_index : Int) (max_length : Nat)
    (tokenizer : Option (String → List String)) : SMILESVocabulary :=
  { start_token := start_token
    end_token := end_token
    special_tokens := [end_token, start_token]
    additional_chars := []
    chars := [end_token, start_token]
    vocab_size := 2
    vocab := [(end_token, end_token_index), (start_token, start_token_index)]
    reversed_vocab := [(end_token_index, end_token), (start_token_index, start_token)]
    max_length := max_length
    tokenizer := tokenizer }

/-- The per-token lookup loop of `encode`: `smiles_matrix[i] = self.vocab[char]`,
raising on the first out-of-vocabulary token. -/
def SMILESVocabulary.lookupIndices (v : SMILESVocabulary) :
    List String → Except VocabError (List Int)
  | [] => .ok []
  | c :: cs =>
    match v.vocab.lookup c with
    | none => .error (.missingToken c)
    | some i => (v.lookupIndices cs).map (fun is => i :: is)

/-- `SMILESVocabulary.encode`: raises if no tokenizer is set, otherwise
tokenizes and maps each token to its index. -/
def SMILESVocabulary.encode (v : SMILESVocabulary) (smiles : String) :
    Except VocabError (List Int) :=
  match v.tokenizer with
  | none => .error .noTokenizer
  | some tok => v.lookupIndices (tok smiles)

/-- The loop of `decode`: skip indices in `ignore_indices`, skip the start
token's index, break at the end token's index, otherwise append
`reversed_vocab[i]`. -/
def SMILESVocabulary.decodeChars (v : SMILESVocabulary) (ignore : List Int) :
    List Int → Except VocabError (List String)
  | [] => .ok []
  | i :: rest =>
    if ignore.contains i then v.decodeChars ignore rest
    else
      match v.vocab.lookup v.start_token with
      | none => .error (.missingToken v.start_token)
      | some sIdx =>
        if i = sIdx then v.decodeChars ignore rest
        else
          match v.vocab.lookup v.end_token with
          | none => .error (.missingToken v.end_token)
          | some eIdx =>
            if i = eIdx then .ok []
            else
              match v.reversed_vocab.lookup i with
              | none => .error (.missingIndex i)
              | some c => (v.decodeChars ignore rest).map (fun cs => c :: cs)

/-- Python `str.replace` for a single-character pattern: every occurrence of
the character is replaced (single-character occurrences cannot overlap). -/
def replaceCharStr (s : String) (pat : Char) (rep : String) : String :=
  String.mk (s.data.map (fun c => if c = pat then rep.data else [c])).flatten

/-- The final normalization of `decode`:
`smiles.replace("L", "Cl").replace("R", "Br")` (neither replacement string
contains the other pattern, so chaining is per-character substitution). -/
def replaceHalogenPlaceholders (s : String) : String :=
  replaceCharStr (replaceCharStr s 'L' "Cl") 'R' "Br"

/-- `SMILESVocabulary.decode`: run the loop, join the characters, then apply
the placeholder normalization. -/
def SMILESVocabulary.decode (v : SMILESVocabulary) (encoded_smiles : List Int)
    (ignore_indices : List Int) : Except VocabError String :=
  (v.decodeChars ignore_indices encoded_smiles).map
    (fun cs => replaceHalogenPlaceholders (String.join cs))

/-- Code-point lexicographic order on character lists, Python's order on
strings. -/
def charListLe : List Char → List Char → Bool
  | [], _ => true
  | _ :: _, [] => false
  | a :: as, b :: bs =>
    if a.toNat < b.toNat then true
    else if b.toNat < a.toNat then false
    else charListLe as bs

/-- Python's `<=` on strings, used by `char_list.sort()` / `sorted(...)`. -/
def strLe (a b : String) : Bool := charListLe a.data b.data

/-- The set-insertion loop of `add_characters`:
`if char not in self.chars: self.additional_chars.add(char)`. -/
def collectAdditional (existing : List String) (acc : List String) :
    List String → List String
  | [] => acc
  | c :: cs =>
    if c ∈ existing then collectAdditional existing acc cs
    else collectAdditional existing (acc.insert c) cs

/-- `SMILESVocabulary.add_characters`: merge the new tokens into
`additional_chars`, sort them, append the special tokens, and rebuild
`vocab` as `dict(zip(chars, range(len(chars))))` with its inverse. -/
def SMILESVocabulary.add_characters (v : SMILESVocabulary) (chars : List String) :
    SMILESVocabulary :=
  let additional := collectAdditional v.chars v.additional_chars chars
  let char_list := List.insertionSort (fun a b => strLe a b = true) additional
  let chars' := char_list ++ v.special_tokens
  let vocab' := chars'.zip ((List.range chars'.length).map Int.ofNat)
  { v with
    additional_chars := additional
    chars := chars'
    vocab_size := chars'.length
    vocab := vocab'
    reversed_vocab := vocab'.map (fun p => (p.2, p.1)) }

/-- Collect the token set of `create_from_smiles`
(`tokens.update(vocabulary.tokenizer.tokenize(smi))`). -/
def collectTokens (tokenize : String → List String) (acc : List String) :
    List String → List String
  | [] => acc
  | smi :: rest =>
    collectTokens tokenize ((tokenize smi).foldl (fun a c => a.insert c) acc) rest

/-- `SMILESVocabulary.create_from_smiles`: builds a configured vocabulary to
tokenize the corpus, then rebinds `vocabulary = cls()` (a fresh
default-configured vocabulary with no tokenizer) and adds the sorted tokens
to that fresh vocabulary. -/
def SMILESVocabulary.create_from_smiles (smiles_list : List String)
    (tokenizer : String → List String) (start_token : String)
    (start_token_index : Int) (end_token : String) (end_token_index : Int)
    (max_length : Nat) : SMILESVocabulary :=
  let vocabulary := SMILESVocabulary.init start_token start_token_index
    end_token end_token_index max_length (some tokenizer)
  let tokens :=
    match vocabulary.tokenizer with
    | some tok => collectTokens tok [] smiles_list
    | none => []
  let vocabulary := SMILESVocabulary.init "GO" 0 "EOS" 1 140 none
  vocabulary.add_characters (List.insertionSort (fun a b => strLe a b = true) tokens)

/-- `SMILESVocabulary.create_from_dict`: builds a default vocabulary with the
given configuration and overwrites `vocab`, `reversed_vocab`, `chars`,
`special_tokens` and `additional_chars` from the given mapping. -/
def SMILESVocabulary.create_from_dict (vocab : List (String × Int))
    (start_token : String) (end_token : String) (max_length : Nat)
    (tokenizer : Option (String → List String)) : SMILESVocabulary :=
  let vocabulary := SMILESVocabulary.init start_token 0 end_token 1
    max_length tokenizer
  { vocabulary with
    vocab_size := vocab.length
    vocab := vocab
    reversed_vocab := vocab.map (fun p => (p.2, p.1))
    chars := vocab.map (fun p => p.1)
    special_tokens := [end_token, start_token]
    additional_chars :=
      (vocab.map (fun p => p.1)).filter (fun c => c ∉ [end_token, start_token]) }

/-- A character-per-token tokenizer, the simplest instance of the pluggable
`Tokenizer` interface. -/
def charTokenizer (s : String) : List String :=
  s.data.map (fun c => String.mk [c])

/-- Failures of the external scoring call: a `RuntimeError` raised by the
scoring function, or the reshape/broadcast failure when its output's length
does not match the number of terminal rows. -/
inductive ScoringError where
  | runtimeError (msg : String)
  | shapeMismatch
deriving DecidableEq

/-- Failures of the reward transforms. -/
inductive TransformError where
  | decodeFailed (e : VocabError)
  | scoringFailed (e : ScoringError)
deriving DecidableEq

/-- The nested `next` record of a trajectory batch, one list entry per step
(batch flattened in batch-index order): `done` and `terminated` flags, the
`reward` column and the `SMILES` token rows. -/
structure NextRecord where
  done : List Bool
  terminated : List Bool
  reward : List Rat
  smiles : List (List Int)
deriving DecidableEq

/-- Row selection `tensordict.get_sub_tensordict(mask)`. -/
def selectMask {α : Type} (mask : List Bool) (xs : List α) : List α :=
  ((mask.zip xs).filter (fun p => p.1)).map (fun p => p.2)

/-- `max_attempts = 3` in `SMILESReward._call` (examples/ppo/utils.py). -/
def maxAttempts : Nat := 3

/-- The bounded retry loop of `SMILESReward._call`: `f i` is the result of
the i-th call of the scoring function; `retriesLeft` is the number of
further attempts allowed after the current one.  Returns the final result
and the number of warnings emitted (one per failed non-final attempt). -/
def retryAux {E A : Type} (f : Nat → Except E A) :
    Nat → Nat → Except E A × Nat
  | 0, i => (f i, 0)
  | n + 1, i =>
    match f i with
    | .ok a => (.ok a, 0)
    | .error _ =>
      let r := retryAux f n (i + 1)
      (r.1, r.2 + 1)

/-- `for i in range(max_attempts): try ... except RuntimeError: ...` — the
final attempt re-raises, earlier failures warn and continue. -/
def retryScoring {E A : Type} (f : Nat → Except E A) : Except E A × Nat :=
  retryAux f (maxAttempts - 1) 0

/-- Writing back the scored rewards of `SMILESReward._call`
(examples/ppo/utils.py): at each `done` row the next score is added to the
existing reward and the result is multiplied by `reward_scale`; every other
row is untouched. -/
def updateRewards (scale : Rat) : List Bool → List Rat → List Rat → List Rat
  | [], rs, _ => rs
  | _ :: _, [], _ => []
  | d :: ds, r :: rs, scores =>
    if d then
      match scores with
      | [] => r :: updateRewards scale ds rs []
      | sc :: scs => (r + sc) * scale :: updateRewards scale ds rs scs
    else r :: updateRewards scale ds rs scores

/-- Writing back the scored rewards of `SMILESReward.forward`
(acegen/transforms/reward_transform.py): `reward[:, 0] += scores`, no
scaling. -/
def updateRewardsAdd : List Bool → List Rat → List Rat → List Rat
  | [], rs, _ => rs
  | _ :: _, [], _ => []
  | d :: ds, r :: rs, scores =>
    if d then
      match scores with
      | [] => r :: updateRewardsAdd ds rs []
      | sc :: scs => (r + sc) :: updateRewardsAdd ds rs scs
    else r :: updateRewardsAdd ds rs scores

/-- `SMILESReward._call` (examples/ppo/utils.py): select the `done` rows
(no-op when there are none), decode each selected SMILES row with ignore
index `-1`, call the scoring function on the whole list with the bounded
retry loop (a wrong-length score vector is the in-`try` reshape
`RuntimeError`, hence also retried), then add the scores to the selected
rewards and scale the result.  `reward_function i ts` is the result of the
i-th attempt on texts `ts`. -/
def smilesRewardCall (v : SMILESVocabulary)
    (reward_function : Nat → List String → Except ScoringError (List Rat))
    (reward_scale : Rat) (next : NextRecord) : Except TransformError NextRecord :=
  let done := next.done
  if done.count true = 0 then .ok next
  else
    let reward := selectMask done next.reward
    let smiles := selectMask done next.smiles
    match smiles.mapM (fun smi => v.decode smi [-1]) with
    | .error e => .error (.decodeFailed e)
    | .ok smiles_list =>
      let attempt := fun i =>
        match reward_function i smiles_list with
        | .error e => (.error e : Except ScoringError (List Rat))
        | .ok scores =>
          if scores.length = reward.length then .ok scores
          else .error .shapeMismatch
      match (retryScoring attempt).1 with
      | .error e => .error (.scoringFailed e)
      | .ok scores =>
        .ok { next with reward := updateRewards reward_scale done next.reward scores }

/-- `SMILESReward.forward` (examples/ppo/utils.py) runs `_call` on the
nested `next` record and returns the batch. -/
def smilesRewardForward (v : SMILESVocabulary)
    (reward_function : Nat → List String → Except ScoringError (List Rat))
    (reward_scale : Rat) (next : NextRecord) : Except TransformError NextRecord :=
  smilesRewardCall v reward_function reward_scale next

/-- `SMILESReward.forward` (acegen/transforms/reward_transform.py): select
the `terminated` rows of `next` (no-op when there are none), decode each
selected SMILES row with ignore index `-1`, call the scoring function once
(failures propagate, no retry, no scaling) and add the scores into the
reward column of the selected rows via `reward[:, 0] += torch.tensor(scores)`.
The in-place add follows the tensor broadcast rule: it succeeds when the
score vector has one score per selected row, or a single score that is
broadcast (added) to every selected row; any other length raises. -/
def smilesRewardForwardOld (v : SMILESVocabulary)
    (reward_function : List String → Except ScoringError (List Rat))
    (next : NextRecord) : Except TransformError NextRecord :=
  let terminated := next.terminated
  if terminated.count true = 0 then .ok next
  else
    let reward := selectMask terminated next.reward
    let smiles := selectMask terminated next.smiles
    match smiles.mapM (fun smi => v.decode smi [-1]) with
    | .error e => .error (.decodeFailed e)
    | .ok smiles_list =>
      match reward_function smiles_list with
      | .error e => .error (.scoringFailed e)
      | .ok scores =>
        if scores.length = reward.length then
          .ok { next with reward := updateRewardsAdd terminated next.reward scores }
        else if scores.length = 1 then
          let broadcast := List.replicate reward.length (scores.getD 0 0)
          .ok { next with reward := updateRewardsAdd terminated next.reward broadcast }
        else .error (.scoringFailed .shapeMismatch)

/-- Modelled from the spec: `PenaliseRepeatedSMILES` /
`penalise_repeated_smiles` is imported by `src/ppo_kl_loss.py` and
`src/examples/impala/impala_multi_node.py` but its definition is not under
`src/`.  Following spec section 4.3: each batch entry is `(terminal flag,
decoded text, shaped reward)`; terminal entries are processed in batch-index
order; if the text is already in the archive its reward is replaced by the
configured `penalty` and the repeat counter is incremented, otherwise the
text is inserted into the archive and the reward is left as is; non-terminal
entries pass through unchanged.  Returns the final archive, the updated
batch, and the number of repeats detected. -/
def penaliseRepeatedSMILES (penalty : Rat) :
    List String → List (Bool × String × Rat) →
      List String × List (Bool × String × Rat) × Nat
  | archive, [] => (archive, [], 0)
  | archive, (d, s, r) :: rest =>
    if d then
      if s ∈ archive then
        let out := penaliseRepeatedSMILES penalty archive rest
        (out.1, (d, s, penalty) :: out.2.1, out.2.2 + 1)
      else
        let out := penaliseRepeatedSMILES penalty (s :: archive) rest
        (out.1, (d, s, r) :: out.2.1, out.2.2)
    else
      let out := penaliseRepeatedSMILES penalty archive rest
      (out.1, (d, s, r) :: out.2.1, out.2.2)

/-! ## Reference predicates for the decode claims (from the spec's wording) -/

/-- Spec wording for `decode`: iteration continues past an index unless it is
the end-token index and neither ignored nor the start-token index (the
ignore/start skips come first in the loop, so an ignored end index does not
stop decoding). -/
def decodeKeeps (ignore : List Int) (sIdx eIdx : Int) (i : Int) : Bool :=
  !(i == eIdx && !ignore.contains i && !(i == sIdx))

/-- Spec wording for `decode`: an index contributes a character iff it is
neither ignored nor the start-token index. -/
def decodeEmits (ignore : List Int) (sIdx : Int) (i : Int) : Bool :=
  !ignore.contains i && !(i == sIdx)

/-- The decode loop equals: truncate at the first stopping index, drop the
ignored and start indices, and map the rest through `reversed_vocab`. -/
theorem decodeChars_characterization (v : SMILESVocabulary) (ignore : List Int)
    (sIdx eIdx : Int)
    (hstart : v.vocab.lookup v.start_token = some sIdx)
    (hend : v.vocab.lookup v.end_token = some eIdx) :
    ∀ enc : List Int,
      (∀ i ∈ enc.takeWhile (decodeKeeps ignore sIdx eIdx),
        ignore.contains i = false → i ≠ sIdx → (v.reversed_vocab.lookup i).isSome) →
      v.decodeChars ignore enc =
        .ok (((enc.takeWhile (decodeKeeps ignore sIdx eIdx)).filter
            (decodeEmits ignore sIdx)).filterMap
          (fun i => v.reversed_vocab.lookup i)) := by
  intro enc
  induction enc with
  | nil => intro _; simp [SMILESVocabulary.decodeChars]
  | cons i rest ih =>
    intro h
    by_cases hic : ignore.contains i = true
    · have him : i ∈ ignore := by simpa using hic
      have hkeep : decodeKeeps ignore sIdx eIdx i = true := by
        simp [decodeKeeps]
        exact Or.inl (Or.inr him)
      have hemit : decodeEmits ignore sIdx i = false := by
        simp [decodeEmits]
        intro hcon
        exact absurd him hcon
      have hrec := ih (fun j hj hj1 hj2 =>
        h j (by rw [List.takeWhile_cons_of_pos hkeep]; exact List.mem_cons_of_mem i hj) hj1 hj2)
      rw [List.takeWhile_cons_of_pos hkeep, List.filter_cons_of_neg (by simp [hemit])]
      simp only [SMILESVocabulary.decodeChars]
      rw [if_pos hic]
      exact hrec
    · have him : i ∉ ignore := by simpa using hic
      by_cases hs : i = sIdx
      · have hkeep : decodeKeeps ignore sIdx eIdx i = true := by
          simp [decodeKeeps, hs]
        have hemit : decodeEmits ignore sIdx i = false := by
          simp [decodeEmits, hs]
        have hrec := ih (fun j hj hj1 hj2 =>
          h j (by rw [List.takeWhile_cons_of_pos hkeep]; exact List.mem_cons_of_mem i hj) hj1 hj2)
        rw [List.takeWhile_cons_of_pos hkeep, List.filter_cons_of_neg (by simp [hemit])]
        simp only [SMILESVocabulary.decodeChars, hstart]
        rw [if_neg hic, if_pos hs]
        exact hrec
      · by_cases he : i = eIdx
        · have hkeep : decodeKeeps ignore sIdx eIdx i = false := by
            simp [decodeKeeps, he, hs]
            exact ⟨he ▸ him, he ▸ hs⟩
          rw [List.takeWhile_cons_of_neg (by simp [hkeep])]
          simp only [SMILESVocabulary.decodeChars, hstart, hend]
          rw [if_neg hic, if_neg hs, if_pos he]
          simp
        · have hkeep : decodeKeeps ignore sIdx eIdx i = true := by
            simp [decodeKeeps, he, hs]
          have hemit : decodeEmits ignore sIdx i = true := by
            simp [decodeEmits, hs]
            exact him
          have hhead : (v.reversed_vocab.lookup i).isSome := by
            refine h i ?_ (by simpa using hic) hs
            rw [List.takeWhile_cons_of_pos hkeep]
            exact List.mem_cons_self i _
          obtain ⟨c, hc⟩ := Option.isSome_iff_exists.mp hhead
          have hrec := ih (fun j hj hj1 hj2 =>
            h j (by rw [List.takeWhile_cons_of_pos hkeep]; exact List.mem_cons_of_mem i hj) hj1 hj2)
          rw [List.takeWhile_cons_of_pos hkeep, List.filter_cons_of_pos (by simp [hemit])]
          simp only [SMILESVocabulary.decodeChars, hstart, hend, hc]
          rw [if_neg hic, if_neg hs, if_neg he]
          rw [hrec, List.filterMap_cons, hc]
          rfl

/-- C4: `decode` skips every index in the ignore set, skips the start-token
index, stops entirely at the first end-token index (the end-token check
takes priority over appending a character), concatenates the remaining
indices' tokens, and finally applies the placeholder-to-element-symbol
normalization to the whole string. -/
theorem decode_skips_and_stops (v : SMILESVocabulary) (enc ignore : List Int)
    (sIdx eIdx : Int)
    (hstart : v.vocab.lookup v.start_token = some sIdx)
    (hend : v.vocab.lookup v.end_token = some eIdx)
    (hrev : ∀ i ∈ enc.takeWhile (decodeKeeps ignore sIdx eIdx),
      ignore.contains i = false → i ≠ sIdx → (v.reversed_vocab.lookup i).isSome) :
    v.decode enc ignore =
      .ok (replaceHalogenPlaceholders (String.join
        (((enc.takeWhile (decodeKeeps ignore sIdx eIdx)).filter
            (decodeEmits ignore sIdx)).filterMap
          (fun i => v.reversed_vocab.lookup i)))) := by
  unfold SMILESVocabulary.decode
  rw [decodeChars_characterization v ignore sIdx eIdx hstart hend enc hrev]
  rfl

/-- A concrete vocabulary built as in the spec's scenario: tokens
`["(", ")", "1", "=", "C", "N", "O"]` plus reserved `GO`/`EOS`, with the
character tokenizer.  Its token-to-index mapping is
`[("(", 0), (")", 1), ("1", 2), ("=", 3), ("C", 4), ("N", 5), ("O", 6),
("EOS", 7), ("GO", 8)]`. -/
def Vc : SMILESVocabulary :=
  (SMILESVocabulary.init "GO" 0 "EOS" 1 140 (some charTokenizer)).add_characters
    ["(", ")", "1", "=", "C", "N", "O"]

/-- C4 witness: `[-1, 8, 0, 7, 4]` with ignore set `[-1]` decodes to `"("`:
`-1` is ignored, `8` is the start token, `0` maps to `"("`, `7` is the end
token and stops decoding, so the trailing `4` is dropped. -/
theorem decode_skips_and_stops_witness :
    Vc.decode [-1, 8, 0, 7, 4] [-1] = .ok "(" := by
  have h := decode_skips_and_stops Vc [-1, 8, 0, 7, 4] [-1] 8 7
    (by decide) (by decide) (by decide)
  rw [h]
  rfl

/-- A token round-trips through `vocab`/`reversed_vocab` if its index is
defined, inverts back to the token, and is neither the start nor the end
index. -/
def tokenRoundtrips (v : SMILESVocabulary) (sIdx eIdx : Int) (t : String) : Bool :=
  match v.vocab.lookup t with
  | none => false
  | some i => (v.reversed_vocab.lookup i == some t) && (i != sIdx) && (i != eIdx)

/-- Encoding a list of round-tripping tokens succeeds and decoding the
resulting indices recovers exactly the same tokens. -/
theorem roundtrip_chars (v : SMILESVocabulary) (sIdx eIdx : Int)
    (hstart : v.vocab.lookup v.start_token = some sIdx)
    (hend : v.vocab.lookup v.end_token = some eIdx) :
    ∀ ts : List String, (∀ t ∈ ts, tokenRoundtrips v sIdx eIdx t = true) →
      ∃ ixs, v.lookupIndices ts = .ok ixs ∧ v.decodeChars [] ixs = .ok ts := by
  intro ts
  induction ts with
  | nil => intro _; exact ⟨[], rfl, rfl⟩
  | cons t ts ih =>
    intro h
    have ht := h t (List.mem_cons_self t ts)
    cases hlv : v.vocab.lookup t with
    | none => simp [tokenRoundtrips, hlv] at ht
    | some i =>
      rw [tokenRoundtrips, hlv] at ht
      simp only [Bool.and_eq_true, beq_iff_eq, bne_iff_ne] at ht
      obtain ⟨⟨hrev, hsne⟩, hene⟩ := ht
      obtain ⟨ixs, hok, hdec⟩ := ih (fun u hu => h u (List.mem_cons_of_mem _ hu))
      refine ⟨i :: ixs, ?_, ?_⟩
      · simp only [SMILESVocabulary.lookupIndices, hlv, hok]
        rfl
      · simp only [SMILESVocabulary.decodeChars, hstart, hend, hrev]
        rw [if_neg (by simp), if_neg hsne, if_neg hene, hdec]
        rfl

/-- C1: for any text that the tokenizer splits into tokens that are in the
vocabulary (and invert back, and are not the reserved start/end tokens),
with fewer tokens than the maximum length, decoding the result of encoding
the text returns the original text modulo the element-symbol
canonicalization (the single-letter placeholders `L`/`R` replaced by
`Cl`/`Br`). -/
theorem decode_encode_roundtrip (v : SMILESVocabulary) (tok : String → List String)
    (ts : List String) (s : String) (sIdx eIdx : Int)
    (htok : v.tokenizer = some tok)
    (hts : tok s = ts)
    (hjoin : String.join ts = s)
    (hlen : ts.length < v.max_length)
    (hstart : v.vocab.lookup v.start_token = some sIdx)
    (hend : v.vocab.lookup v.end_token = some eIdx)
    (hvoc : ∀ t ∈ ts, tokenRoundtrips v sIdx eIdx t = true) :
    ∃ ixs, v.encode s = .ok ixs ∧
      v.decode ixs [] = .ok (replaceHalogenPlaceholders s) := by
  obtain ⟨ixs, hok, hdec⟩ := roundtrip_chars v sIdx eIdx hstart hend ts hvoc
  refine ⟨ixs, ?_, ?_⟩
  · simp only [SMILESVocabulary.encode, htok, hts]
    exact hok
  · rw [SMILESVocabulary.decode, hdec]
    rw [show Except.map (fun cs => replaceHalogenPlaceholders (String.join cs))
      (Except.ok ts : Except VocabError (List String)) =
      .ok (replaceHalogenPlaceholders (String.join ts)) from rfl, hjoin]

/-- C1 witness: the spec's scenario string `"C1=CC=CC=C1"` over `Vc`
round-trips (it contains no placeholder letters, so canonicalization is the
identity on it). -/
theorem decode_encode_roundtrip_witness :
    ∃ ixs, Vc.encode "C1=CC=CC=C1" = .ok ixs ∧
      Vc.decode ixs [] = .ok (replaceHalogenPlaceholders "C1=CC=CC=C1") :=
  decode_encode_roundtrip Vc charTokenizer
    ["C", "1", "=", "C", "C", "=", "C", "C", "=", "C", "1"] "C1=CC=CC=C1" 8 7
    rfl rfl (by decide) (by decide) (by decide) (by decide) (by decide)

/-- If every token is in the vocabulary, the encode loop returns one index
per token, each the token's mapped index. -/
theorem lookupIndices_ok_of_all (v : SMILESVocabulary) :
    ∀ ts : List String, (∀ c ∈ ts, (v.vocab.lookup c).isSome) →
      ∃ ixs, v.lookupIndices ts = .ok ixs ∧ ixs.length = ts.length ∧
        ∀ k, k < ts.length → v.vocab.lookup (ts.getD k "") = some (ixs.getD k 0) := by
  intro ts
  induction ts with
  | nil => intro _; exact ⟨[], rfl, rfl, fun k hk => absurd hk (by simp)⟩
  | cons c cs ih =>
    intro h
    obtain ⟨i, hlv⟩ := Option.isSome_iff_exists.mp (h c (List.mem_cons_self c cs))
    obtain ⟨ixs, hok, hlen, hpt⟩ := ih (fun u hu => h u (List.mem_cons_of_mem _ hu))
    refine ⟨i :: ixs, ?_, by simp [hlen], ?_⟩
    · simp only [SMILESVocabulary.lookupIndices, hlv, hok]
      rfl
    · intro k hk
      match k with
      | 0 => simpa using hlv
      | Nat.succ m =>
        have hm : m < cs.length := by simpa using hk
        simpa using hpt m hm

/-- If some token is missing from the vocabulary, the encode loop raises
the missing-token failure (for the first missing token). -/
theorem lookupIndices_error_of_missing (v : SMILESVocabulary) :
    ∀ ts : List String, (∃ c ∈ ts, v.vocab.lookup c = none) →
      ∃ c ∈ ts, v.vocab.lookup c = none ∧
        v.lookupIndices ts = .error (.missingToken c) := by
  intro ts
  induction ts with
  | nil => intro h; simp at h
  | cons c cs ih =>
    intro h
    cases hlv : v.vocab.lookup c with
    | none =>
      exact ⟨c, List.mem_cons_self c cs, hlv, by simp [SMILESVocabulary.lookupIndices, hlv]⟩
    | some i =>
      have hcs : ∃ u ∈ cs, v.vocab.lookup u = none := by
        obtain ⟨u, hu, hun⟩ := h
        rcases List.mem_cons.mp hu with rfl | hu2
        · exact absurd hun (by simp [hlv])
        · exact ⟨u, hu2, hun⟩
      obtain ⟨u, hu, hun, herr⟩ := ih hcs
      refine ⟨u, List.mem_cons_of_mem _ hu, hun, ?_⟩
      simp only [SMILESVocabulary.lookupIndices, hlv, herr]
      rfl

/-- C8: `encode` fails with the missing-token error when the tokenized text
contains a token outside the vocabulary, and succeeds with exactly one
index per token (each token's mapped index) when every token is in the
vocabulary. -/
theorem encode_missing_token (v : SMILESVocabulary) (tok : String → List String)
    (s : String) (htok : v.tokenizer = some tok) :
    ((∀ c ∈ tok s, (v.vocab.lookup c).isSome) →
      ∃ ixs, v.encode s = .ok ixs ∧ ixs.length = (tok s).length ∧
        ∀ k, k < (tok s).length →
          v.vocab.lookup ((tok s).getD k "") = some (ixs.getD k 0)) ∧
    ((∃ c ∈ tok s, v.vocab.lookup c = none) →
      ∃ c ∈ tok s, v.vocab.lookup c = none ∧
        v.encode s = .error (.missingToken c)) := by
  constructor
  · intro hall
    obtain ⟨ixs, hok, hlen, hpt⟩ := lookupIndices_ok_of_all v (tok s) hall
    refine ⟨ixs, ?_, hlen, hpt⟩
    simp only [SMILESVocabulary.encode, htok]
    exact hok
  · intro hmiss
    obtain ⟨c, hc, hcn, herr⟩ := lookupIndices_error_of_missing v (tok s) hmiss
    refine ⟨c, hc, hcn, ?_⟩
    simp only [SMILESVocabulary.encode, htok]
    exact herr

/-- C8 witness: over `Vc`, `"C1=X"` fails with a missing-token error
(`"X"` is out of vocabulary) while `"C1"` encodes to one index per token. -/
theorem encode_missing_token_witness :
    (∃ c ∈ charTokenizer "C1=X", Vc.vocab.lookup c = none ∧
      Vc.encode "C1=X" = .error (.missingToken c)) ∧
    (∃ ixs, Vc.encode "C1" = .ok ixs ∧ ixs.length = (charTokenizer "C1").length ∧
      ∀ k, k < (charTokenizer "C1").length →
        Vc.vocab.lookup ((charTokenizer "C1").getD k "") = some (ixs.getD k 0)) := by
  constructor
  · exact (encode_missing_token Vc charTokenizer "C1=X" rfl).2 (by decide)
  · exact (encode_missing_token Vc charTokenizer "C1" rfl).1 (by decide)

/-- Membership in the rebuilt `additional_chars` set: the old set plus the
new characters that are not current vocabulary tokens. -/
theorem mem_collectAdditional (ex : List String) :
    ∀ (l acc : List String) (x : String),
      x ∈ collectAdditional ex acc l ↔ x ∈ acc ∨ (x ∈ l ∧ x ∉ ex) := by
  intro l
  induction l with
  | nil => intro acc x; simp [collectAdditional]
  | cons c cs ih =>
    intro acc x
    by_cases hc : c ∈ ex
    · rw [collectAdditional, if_pos hc, ih]
      constructor
      · rintro (hx | ⟨hx1, hx2⟩)
        · exact Or.inl hx
        · exact Or.inr ⟨List.mem_cons_of_mem _ hx1, hx2⟩
      · rintro (hx | ⟨hx1, hx2⟩)
        · exact Or.inl hx
        · rcases List.mem_cons.mp hx1 with rfl | hx1
          · exact absurd hc hx2
          · exact Or.inr ⟨hx1, hx2⟩
    · rw [collectAdditional, if_neg hc, ih]
      simp only [List.mem_insert_iff, List.mem_cons]
      constructor
      · rintro ((rfl | hx) | ⟨hx1, hx2⟩)
        · exact Or.inr ⟨Or.inl rfl, hc⟩
        · exact Or.inl hx
        · exact Or.inr ⟨Or.inr hx1, hx2⟩
      · rintro (hx | ⟨rfl | hx1, hx2⟩)
        · exact Or.inl (Or.inr hx)
        · exact Or.inl (Or.inl rfl)
        · exact Or.inr ⟨hx1, hx2⟩

/-- The rebuilt `additional_chars` set stays duplicate-free. -/
theorem nodup_collectAdditional (ex : List String) :
    ∀ (l acc : List String), acc.Nodup → (collectAdditional ex acc l).Nodup := by
  intro l
  induction l with
  | nil => intro acc h; exact h
  | cons c cs ih =>
    intro acc h
    by_cases hc : c ∈ ex
    · rw [collectAdditional, if_pos hc]; exact ih acc h
    · rw [collectAdditional, if_neg hc]; exact ih _ h.insert

/-- `charListLe` is transitive. -/
theorem charListLe_trans :
    ∀ as bs cs, charListLe as bs = true → charListLe bs cs = true →
      charListLe as cs = true := by
  intro as
  induction as with
  | nil => intro bs cs _ _; rfl
  | cons a as ih =>
    intro bs cs hab hbc
    match bs, cs with
    | [], _ => simp [charListLe] at hab
    | _ :: _, [] => simp [charListLe] at hbc
    | b :: bs, c :: cs =>
      rw [charListLe] at hab hbc ⊢
      by_cases h1 : a.toNat < b.toNat
      · by_cases h2 : b.toNat < c.toNat
        · rw [if_pos (by omega)]
        · rw [if_neg h2] at hbc
          by_cases h3 : c.toNat < b.toNat
          · rw [if_pos h3] at hbc; exact absurd hbc (by simp)
          · rw [if_pos (by omega)]
      · rw [if_neg h1] at hab
        by_cases h4 : b.toNat < a.toNat
        · rw [if_pos h4] at hab; exact absurd hab (by simp)
        · rw [if_neg h4] at hab
          by_cases h2 : b.toNat < c.toNat
          · rw [if_pos (by omega)]
          · rw [if_neg h2] at hbc
            by_cases h3 : c.toNat < b.toNat
            · rw [if_pos h3] at hbc; exact absurd hbc (by simp)
            · rw [if_neg h3] at hbc
              rw [if_neg (by omega), if_neg (by omega)]
              exact ih bs cs hab hbc

/-- `charListLe` is total. -/
theorem charListLe_total :
    ∀ as bs, charListLe as bs = true ∨ charListLe bs as = true := by
  intro as
  induction as with
  | nil => intro bs; exact Or.inl rfl
  | cons a as ih =>
    intro bs
    match bs with
    | [] => exact Or.inr rfl
    | b :: bs =>
      rw [charListLe, charListLe]
      by_cases h1 : a.toNat < b.toNat
      · exact Or.inl (by rw [if_pos h1])
      · by_cases h2 : b.toNat < a.toNat
        · exact Or.inr (by rw [if_pos h2])
        · rw [if_neg h1, if_neg h2, if_neg h2, if_neg h1]
          exact ih bs

instance : IsTrans String (fun a b => strLe a b = true) :=
  ⟨fun a b c hab hbc => charListLe_trans a.data b.data c.data hab hbc⟩

instance : IsTotal String (fun a b => strLe a b = true) :=
  ⟨fun a b => charListLe_total a.data b.data⟩

/-- A key found in the front part of an association list is found in the
whole list with the same value. -/
theorem lookup_append_left {β : Type} (k : String) :
    ∀ (ps qs : List (String × β)) (b : β),
      ps.lookup k = some b → (ps ++ qs).lookup k = some b := by
  intro ps
  induction ps with
  | nil => intro qs b h; simp [List.lookup] at h
  | cons p ps ih =>
    intro qs b h
    rw [List.lookup] at h
    rw [List.cons_append, List.lookup]
    cases hk : (k == p.1) with
    | true => rw [hk] at h; exact h
    | false => rw [hk] at h; exact ih qs b h

/-- Looking up a key that is absent from the front part of a zipped
association list skips to the back part. -/
theorem lookup_zip_skip (k : String) :
    ∀ (front : List String) (idxs : List Int) (rest : List String),
      k ∉ front →
      ((front ++ rest).zip idxs).lookup k = (rest.zip (idxs.drop front.length)).lookup k := by
  intro front
  induction front with
  | nil => intro idxs rest _; simp
  | cons a front ih =>
    intro idxs rest hk
    match idxs with
    | [] => simp [List.zip_nil_right, List.lookup]
    | i :: idxs =>
      rw [List.cons_append, List.zip_cons_cons, List.lookup]
      have hka : (k == a) = false := by
        simp only [beq_eq_false_iff_ne, ne_eq]
        intro h
        exact hk (h ▸ List.mem_cons_self a front)
      rw [hka]
      simpa using ih idxs rest (fun h => hk (List.mem_cons_of_mem _ h))

/-- Looking up a member of the key list of a zipped association list yields
the value at some position within the key list's length. -/
theorem lookup_zip_mem (t : String) :
    ∀ (l : List String) (idxs : List Int), t ∈ l → l.length ≤ idxs.length →
      ∃ k : Nat, k < l.length ∧ (l.zip idxs).lookup t = idxs[k]? := by
  intro l
  induction l with
  | nil => intro idxs h _; simp at h
  | cons a l ih =>
    intro idxs ht hlen
    match idxs with
    | [] => simp at hlen
    | i :: idxs =>
      rw [List.zip_cons_cons, List.lookup]
      by_cases hta : t = a
      · refine ⟨0, by simp, ?_⟩
        rw [show (t == a) = true by simpa using hta]
        simp
      · rw [show (t == a) = false by simpa using hta]
        have ht2 : t ∈ l := by
          rcases List.mem_cons.mp ht with rfl | h
          · exact absurd rfl hta
          · exact h
        obtain ⟨k, hk, hlk⟩ := ih idxs ht2 (by simpa using hlen)
        exact ⟨k + 1, by simpa using hk, by simpa using hlk⟩

/-- C7: `add_characters` rebuilds the mapping with the non-reserved tokens
sorted (in Python's string order) at the lowest indices `0..N-3`, the two
reserved tokens fixed at the highest indices (`end_token` at `N-2`,
`start_token` at `N-1`), and the rebuilt token-to-index mapping bijective:
its keys are exactly the (duplicate-free) `chars` list and its values are
exactly the indices `0..N-1`. -/
theorem add_characters_rebuilds (v : SMILESVocabulary) (new : List String)
    (hspec : v.special_tokens = [v.end_token, v.start_token])
    (hne : v.end_token ≠ v.start_token)
    (hstart : v.start_token ∈ v.chars) (hend : v.end_token ∈ v.chars)
    (hnodup : v.additional_chars.Nodup)
    (hsadd : v.start_token ∉ v.additional_chars)
    (headd : v.end_token ∉ v.additional_chars) :
    ∃ cs : List String,
      (v.add_characters new).chars = cs ++ [v.end_token, v.start_token] ∧
      cs.Pairwise (fun a b => strLe a b = true) ∧
      v.start_token ∉ cs ∧ v.end_token ∉ cs ∧
      (v.add_characters new).chars.Nodup ∧
      (v.add_characters new).vocab.map Prod.fst = (v.add_characters new).chars ∧
      (v.add_characters new).vocab.map Prod.snd =
        (List.range (v.add_characters new).chars.length).map Int.ofNat ∧
      (v.add_characters new).vocab.lookup v.end_token = some (Int.ofNat cs.length) ∧
      (v.add_characters new).vocab.lookup v.start_token =
        some (Int.ofNat (cs.length + 1)) ∧
      ∀ t ∈ cs, ∃ k : Nat, k < cs.length ∧
        (v.add_characters new).vocab.lookup t = some (Int.ofNat k) := by
  classical
  set additional := collectAdditional v.chars v.additional_chars new with hadddef
  set cs := List.insertionSort (fun a b => strLe a b = true) additional with hcsdef
  have hchars : (v.add_characters new).chars = cs ++ [v.end_token, v.start_token] := by
    simp only [SMILESVocabulary.add_characters, hspec]
  have hlenchars : (v.add_characters new).chars.length = cs.length + 2 := by
    rw [hchars]; simp
  have hvocab : (v.add_characters new).vocab =
      (cs ++ [v.end_token, v.start_token]).zip
        ((List.range (cs.length + 2)).map Int.ofNat) := by
    simp only [SMILESVocabulary.add_characters, hspec]
    simp [hcsdef, List.length_insertionSort]
  have hnadd : additional.Nodup := nodup_collectAdditional v.chars new v.additional_chars hnodup
  have hncs : cs.Nodup := (List.perm_insertionSort _ additional).nodup_iff.mpr hnadd
  have hmemcs : ∀ x, x ∈ cs ↔ x ∈ v.additional_chars ∨ (x ∈ new ∧ x ∉ v.chars) := by
    intro x
    rw [hcsdef, List.mem_insertionSort, hadddef, mem_collectAdditional]
  have hsnot : v.start_token ∉ cs := by
    rw [hmemcs]
    rintro (h | ⟨_, h⟩)
    · exact hsadd h
    · exact h hstart
  have henot : v.end_token ∉ cs := by
    rw [hmemcs]
    rintro (h | ⟨_, h⟩)
    · exact headd h
    · exact h hend
  have hrange : (List.range (cs.length + 2)).map Int.ofNat =
      (List.range cs.length).map Int.ofNat ++
        [Int.ofNat cs.length, Int.ofNat (cs.length + 1)] := by
    rw [show cs.length + 2 = (cs.length + 1) + 1 from rfl, List.range_succ, List.range_succ]
    simp [List.append_assoc]
  have hlenmap : ((List.range cs.length).map Int.ofNat).length = cs.length := by simp
  refine ⟨cs, hchars, ?_, hsnot, henot, ?_, ?_, ?_, ?_, ?_, ?_⟩
  · exact List.sorted_insertionSort _ additional
  · rw [hchars, List.nodup_append]
    refine ⟨hncs, by simp [hne], ?_⟩
    intro x hx
    simp only [List.mem_cons, List.not_mem_nil, or_false]
    rintro (rfl | rfl)
    · exact henot hx
    · exact hsnot hx
  · rw [hvocab, List.map_fst_zip _ _ (by simp), hchars]
  · rw [hvocab, hlenchars, List.map_snd_zip _ _ (by simp)]
  · rw [hvocab, lookup_zip_skip v.end_token cs _ _ henot, hrange,
      List.drop_left' hlenmap]
    simp [List.lookup]
  · rw [hvocab, lookup_zip_skip v.start_token cs _ _ hsnot, hrange,
      List.drop_left' hlenmap]
    rw [List.zip_cons_cons, List.lookup]
    rw [show (v.start_token == v.end_token) = false by simpa using (Ne.symm hne)]
    simp [List.lookup]
  · intro t ht
    obtain ⟨k, hk, hlk⟩ := lookup_zip_mem t cs ((List.range cs.length).map Int.ofNat)
      ht (by simp)
    refine ⟨k, hk, ?_⟩
    rw [hvocab, hrange, List.zip_append hlenmap.symm, lookup_append_left _ _ _ _ ?_]
    rw [hlk]
    simp [List.getElem?_range hk]

/-- C7 witness: adding `["C", "(", "C"]` to a fresh default vocabulary
rebuilds the mapping as `[("(", 0), ("C", 1), ("EOS", 2), ("GO", 3)]`. -/
theorem add_characters_rebuilds_witness :
    ∃ cs : List String,
      ((SMILESVocabulary.init "GO" 0 "EOS" 1 140 none).add_characters
        ["C", "(", "C"]).chars = cs ++ ["EOS", "GO"] ∧
      cs.Pairwise (fun a b => strLe a b = true) ∧
      "GO" ∉ cs ∧ "EOS" ∉ cs ∧
      ((SMILESVocabulary.init "GO" 0 "EOS" 1 140 none).add_characters
        ["C", "(", "C"]).chars.Nodup ∧
      ((SMILESVocabulary.init "GO" 0 "EOS" 1 140 none).add_characters
        ["C", "(", "C"]).vocab.map Prod.fst =
        ((SMILESVocabulary.init "GO" 0 "EOS" 1 140 none).add_characters
          ["C", "(", "C"]).chars ∧
      ((SMILESVocabulary.init "GO" 0 "EOS" 1 140 none).add_characters
        ["C", "(", "C"]).vocab.map Prod.snd =
        (List.range ((SMILESVocabulary.init "GO" 0 "EOS" 1 140 none).add_characters
          ["C", "(", "C"]).chars.length).map Int.ofNat ∧
      ((SMILESVocabulary.init "GO" 0 "EOS" 1 140 none).add_characters
        ["C", "(", "C"]).vocab.lookup "EOS" = some (Int.ofNat cs.length) ∧
      ((SMILESVocabulary.init "GO" 0 "EOS" 1 140 none).add_characters
        ["C", "(", "C"]).vocab.lookup "GO" = some (Int.ofNat (cs.length + 1)) ∧
      ∀ t ∈ cs, ∃ k : Nat, k < cs.length ∧
        ((SMILESVocabulary.init "GO" 0 "EOS" 1 140 none).add_characters
          ["C", "(", "C"]).vocab.lookup t = some (Int.ofNat k) :=
  add_characters_rebuilds (SMILESVocabulary.init "GO" 0 "EOS" 1 140 none)
    ["C", "(", "C"] rfl (by decide) (by decide) (by decide) (by decide)
    (by decide) (by decide)

/-- C6: `create_from_smiles` rebinds `vocabulary = cls()` after collecting
the corpus tokens, so the returned vocabulary has the default `GO`/`EOS`
tokens and default maximum length instead of the configured ones, and no
tokenizer at all: `encode` then always fails, while the vocabulary built by
`create_from_dict` from the same token set (with the tokenizer attached)
encodes the same text successfully.  The two constructors therefore do not
produce equivalent vocabularies. -/
theorem create_from_smiles_discards_config :
    (SMILESVocabulary.create_from_smiles ["C"] charTokenizer
      "BEGIN" 0 "END" 1 20).start_token = "GO" ∧
    (SMILESVocabulary.create_from_smiles ["C"] charTokenizer
      "BEGIN" 0 "END" 1 20).end_token = "EOS" ∧
    (SMILESVocabulary.create_from_smiles ["C"] charTokenizer
      "BEGIN" 0 "END" 1 20).max_length = 140 ∧
    (SMILESVocabulary.create_from_smiles ["C"] charTokenizer
      "BEGIN" 0 "END" 1 20).tokenizer.isNone = true ∧
    (SMILESVocabulary.create_from_smiles ["C"] charTokenizer
      "GO" 0 "EOS" 1 140).encode "C" = .error .noTokenizer ∧
    (SMILESVocabulary.create_from_dict [("C", 0), ("EOS", 1), ("GO", 2)]
      "GO" "EOS" 140 (some charTokenizer)).encode "C" = .ok [0] :=
  ⟨rfl, rfl, rfl, rfl, rfl, rfl⟩

/-- Row selection keeps exactly one entry per `true` flag. -/
theorem selectMask_length {α : Type} :
    ∀ (mask : List Bool) (xs : List α), xs.length = mask.length →
      (selectMask mask xs).length = mask.count true := by
  intro mask
  induction mask with
  | nil => intro xs h; simp [selectMask]
  | cons b ms ih =>
    intro xs h
    match xs with
    | [] => simp at h
    | x :: xs =>
      have hlen : xs.length = ms.length := by simpa using h
      cases b with
      | true =>
        simp only [selectMask, List.zip_cons_cons, List.filter_cons] at ih ⊢
        simp only [List.count_cons]
        simpa using ih xs hlen
      | false =>
        simp only [selectMask, List.zip_cons_cons, List.filter_cons] at ih ⊢
        simp only [List.count_cons]
        simpa using ih xs hlen

/-- The reward write-back preserves the number of steps. -/
theorem updateRewards_length (scale : Rat) :
    ∀ (ds : List Bool) (rs scs : List Rat), rs.length = ds.length →
      (updateRewards scale ds rs scs).length = rs.length := by
  intro ds
  induction ds with
  | nil => intro rs scs _; rfl
  | cons d ds ih =>
    intro rs scs h
    match rs with
    | [] => simp at h
    | r :: rs =>
      have hlen : rs.length = ds.length := by simpa using h
      cases d with
      | true =>
        match scs with
        | [] => simpa [updateRewards] using ih rs [] hlen
        | sc :: scs => simpa [updateRewards] using ih rs scs hlen
      | false => simpa [updateRewards] using ih rs scs hlen

/-- Pointwise description of the reward write-back: at the p-th step, if the
flag is set the reward becomes (old + next unconsumed score) * scale, where
the consumed scores are counted among the flagged steps before p; otherwise
the reward is untouched. -/
theorem updateRewards_getD (scale : Rat) :
    ∀ (ds : List Bool) (rs scs : List Rat) (p : Nat),
      rs.length = ds.length → scs.length = ds.count true → p < ds.length →
      (updateRewards scale ds rs scs).getD p 0 =
        if ds.getD p false then
          (rs.getD p 0 + scs.getD ((ds.take p).count true) 0) * scale
        else rs.getD p 0 := by
  intro ds
  induction ds with
  | nil => intro rs scs p _ _ hp; simp at hp
  | cons d ds ih =>
    intro rs scs p hr hs hp
    match rs with
    | [] => simp at hr
    | r :: rs =>
      have hrlen : rs.length = ds.length := by simpa using hr
      cases d with
      | true =>
        have hs1 : scs.length = ds.count true + 1 := by simpa [List.count_cons] using hs
        match scs with
        | [] => simp at hs1
        | sc :: scs =>
          have hslen : scs.length = ds.count true := by simpa using hs1
          match p with
          | 0 => simp [updateRewards]
          | Nat.succ q =>
            have hq : q < ds.length := by simpa using hp
            have hih := ih rs scs q hrlen hslen hq
            simp only [updateRewards, List.getD_cons_succ, List.take_succ_cons,
              List.count_cons, beq_self_eq_true, if_true, hih]
      | false =>
        have hslen : scs.length = ds.count true := by simpa [List.count_cons] using hs
        match p with
        | 0 => simp [updateRewards]
        | Nat.succ q =>
          have hq : q < ds.length := by simpa using hp
          have hih := ih rs scs q hrlen hslen hq
          simp only [updateRewards]
          rw [if_neg (by simp)]
          simp only [List.getD_cons_succ, List.take_succ_cons, List.count_cons, hih]
          simp

/-- With scale 1 the scaled write-back coincides with the additive one. -/
theorem updateRewards_one :
    ∀ (ds : List Bool) (rs scs : List Rat),
      updateRewards 1 ds rs scs = updateRewardsAdd ds rs scs := by
  intro ds
  induction ds with
  | nil => intro rs scs; rfl
  | cons d ds ih =>
    intro rs scs
    match rs with
    | [] => cases d <;> rfl
    | r :: rs =>
      cases d with
      | true =>
        match scs with
        | [] => simp [updateRewards, updateRewardsAdd, ih]
        | sc :: scs => simp [updateRewards, updateRewardsAdd, ih]
      | false => simp [updateRewards, updateRewardsAdd, ih]

/-- C5: when no step of the batch has its terminal flag set (neither `done`
nor `terminated`), both reward transforms return the batch unchanged. -/
theorem no_terminal_noop (v : SMILESVocabulary)
    (rf : Nat → List String → Except ScoringError (List Rat))
    (rfOld : List String → Except ScoringError (List Rat))
    (scale : Rat) (next : NextRecord)
    (hdone : ∀ b ∈ next.done, b = false)
    (hterm : ∀ b ∈ next.terminated, b = false) :
    smilesRewardForward v rf scale next = .ok next ∧
    smilesRewardForwardOld v rfOld next = .ok next := by
  have hd : next.done.count true = 0 :=
    List.count_eq_zero.mpr (fun h => by simpa using hdone true h)
  have ht : next.terminated.count true = 0 :=
    List.count_eq_zero.mpr (fun h => by simpa using hterm true h)
  constructor
  · simp [smilesRewardForward, smilesRewardCall, hd]
  · simp [smilesRewardForwardOld, ht]

/-- C5 witness: a two-step batch with all flags false passes through both
transforms untouched. -/
theorem no_terminal_noop_witness :
    smilesRewardForward Vc (fun _ ts => .ok (ts.map (fun _ => (1 : Rat)))) 2
      ⟨[false, false], [false, false], [0, 5], [[4], [5]]⟩ =
      .ok ⟨[false, false], [false, false], [0, 5], [[4], [5]]⟩ ∧
    smilesRewardForwardOld Vc (fun ts => .ok (ts.map (fun _ => (1 : Rat))))
      ⟨[false, false], [false, false], [0, 5], [[4], [5]]⟩ =
      .ok ⟨[false, false], [false, false], [0, 5], [[4], [5]]⟩ :=
  no_terminal_noop Vc (fun _ ts => .ok (ts.map (fun _ => (1 : Rat))))
    (fun ts => .ok (ts.map (fun _ => (1 : Rat)))) 2
    ⟨[false, false], [false, false], [0, 5], [[4], [5]]⟩
    (by decide) (by decide)

/-- C2: on a batch with at least one terminal (`done`) step, when decoding
succeeds and the scoring call succeeds on its first attempt with one score
per terminal step, the transform adds (not overwrites) each score to the
existing reward at its terminal step and multiplies the result by the
reward scale; non-terminal rewards are untouched. -/
theorem reward_transform_additivity (v : SMILESVocabulary)
    (rf : Nat → List String → Except ScoringError (List Rat)) (scale : Rat)
    (next : NextRecord) (texts : List String) (scores : List Rat)
    (hterm : 0 < next.done.count true)
    (hrlen : next.reward.length = next.done.length)
    (hdec : (selectMask next.done next.smiles).mapM
      (fun smi => v.decode smi [-1]) = .ok texts)
    (hsc : rf 0 texts = .ok scores)
    (hslen : scores.length = next.done.count true) :
    ∃ next', smilesRewardForward v rf scale next = .ok next' ∧
      next'.done = next.done ∧ next'.terminated = next.terminated ∧
      next'.smiles = next.smiles ∧
      next'.reward.length = next.reward.length ∧
      ∀ p, p < next.done.length →
        next'.reward.getD p 0 =
          if next.done.getD p false then
            (next.reward.getD p 0 +
              scores.getD ((next.done.take p).count true) 0) * scale
          else next.reward.getD p 0 := by
  have hcount : (selectMask next.done next.reward).length = next.done.count true :=
    selectMask_length next.done next.reward hrlen
  have hiflen : scores.length = (selectMask next.done next.reward).length := by
    rw [hcount]; exact hslen
  refine ⟨{ next with reward := updateRewards scale next.done next.reward scores },
    ?_, rfl, rfl, rfl, updateRewards_length scale next.done next.reward scores hrlen,
    ?_⟩
  · rw [smilesRewardForward, smilesRewardCall]
    rw [if_neg (by omega)]
    simp only [hdec]
    have hatt : (match rf 0 texts with
      | Except.error e => (Except.error e : Except ScoringError (List Rat))
      | Except.ok scores =>
        if scores.length = (selectMask next.done next.reward).length then
          Except.ok scores
        else Except.error ScoringError.shapeMismatch) = Except.ok scores := by
      rw [hsc]
      exact if_pos hiflen
    simp [retryScoring, maxAttempts, retryAux, hatt]
  · intro p hp
    exact updateRewards_getD scale next.done next.reward scores p hrlen hslen hp

/-- C2 witness: a 2-step batch, terminal at step 1 with prior reward 2, a
scoring function returning 3, scale 2: the terminal reward becomes
(2 + 3) * 2 and step 0 keeps its reward. -/
theorem reward_transform_additivity_witness :
    ∃ next', smilesRewardForward Vc (fun _ ts => .ok (ts.map (fun _ => (3 : Rat)))) 2
        ⟨[false, true], [false, true], [1/2, 2], [[3], [8, 4, 2, 7]]⟩ = .ok next' ∧
      next'.done = (⟨[false, true], [false, true], [1/2, 2],
        [[3], [8, 4, 2, 7]]⟩ : NextRecord).done ∧
      next'.terminated = (⟨[false, true], [false, true], [1/2, 2],
        [[3], [8, 4, 2, 7]]⟩ : NextRecord).terminated ∧
      next'.smiles = (⟨[false, true], [false, true], [1/2, 2],
        [[3], [8, 4, 2, 7]]⟩ : NextRecord).smiles ∧
      next'.reward.length = (⟨[false, true], [false, true], [1/2, 2],
        [[3], [8, 4, 2, 7]]⟩ : NextRecord).reward.length ∧
      ∀ p, p < (⟨[false, true], [false, true], [1/2, 2],
          [[3], [8, 4, 2, 7]]⟩ : NextRecord).done.length →
        next'.reward.getD p 0 =
          if (⟨[false, true], [false, true], [1/2, 2],
              [[3], [8, 4, 2, 7]]⟩ : NextRecord).done.getD p false then
            ((⟨[false, true], [false, true], [1/2, 2],
              [[3], [8, 4, 2, 7]]⟩ : NextRecord).reward.getD p 0 +
              ([(3 : Rat)]).getD (((⟨[false, true], [false, true], [1/2, 2],
                [[3], [8, 4, 2, 7]]⟩ : NextRecord).done.take p).count true) 0) * 2
          else (⟨[false, true], [false, true], [1/2, 2],
            [[3], [8, 4, 2, 7]]⟩ : NextRecord).reward.getD p 0 :=
  reward_transform_additivity Vc (fun _ ts => .ok (ts.map (fun _ => (3 : Rat)))) 2
    ⟨[false, true], [false, true], [1/2, 2], [[3], [8, 4, 2, 7]]⟩ ["C1"] [3]
    (by decide) rfl rfl rfl rfl

/-- C3: the scoring call is attempted at most `max_attempts = 3` times; when
all three attempts fail the retry loop propagates the last failure after
emitting 2 warnings (one between consecutive attempts), and the transform
aborts the batch with that failure instead of swallowing it. -/
theorem scoring_retry_policy (v : SMILESVocabulary) (scale : Rat)
    (next : NextRecord) (f : Nat → Except ScoringError (List Rat))
    (e0 e1 e2 : ScoringError) (texts : List String)
    (h0 : f 0 = .error e0) (h1 : f 1 = .error e1) (h2 : f 2 = .error e2)
    (hterm : 0 < next.done.count true)
    (hdec : (selectMask next.done next.smiles).mapM
      (fun smi => v.decode smi [-1]) = .ok texts) :
    maxAttempts = 3 ∧
    retryScoring f = (.error e2, 2) ∧
    smilesRewardForward v (fun i _ => f i) scale next =
      .error (.scoringFailed e2) := by
  refine ⟨rfl, ?_, ?_⟩
  · simp [retryScoring, maxAttempts, retryAux, h0, h1, h2]
  · rw [smilesRewardForward, smilesRewardCall, if_neg (by omega)]
    simp only [hdec]
    simp [retryScoring, maxAttempts, retryAux, h0, h1, h2]

/-- C3 witness: a scoring function failing on every attempt on a batch with
one terminal step. -/
theorem scoring_retry_policy_witness :
    maxAttempts = 3 ∧
    retryScoring (fun _ => (.error (.runtimeError "boom") :
      Except ScoringError (List Rat))) = (.error (.runtimeError "boom"), 2) ∧
    smilesRewardForward Vc
      (fun i _ => (fun _ => (.error (.runtimeError "boom") :
        Except ScoringError (List Rat))) i) 2
      ⟨[false, true], [false, true], [1/2, 2], [[3], [8, 4, 2, 7]]⟩ =
      .error (.scoringFailed (.runtimeError "boom")) :=
  scoring_retry_policy Vc 2
    ⟨[false, true], [false, true], [1/2, 2], [[3], [8, 4, 2, 7]]⟩
    (fun _ => .error (.runtimeError "boom"))
    (.runtimeError "boom") (.runtimeError "boom") (.runtimeError "boom")
    ["C1"] rfl rfl rfl (by decide) rfl

/-- The `mapM` loop in the `Except` monad produces one output per input. -/
theorem mapM_except_loop_length {α β E : Type} (f : α → Except E β) :
    ∀ (as : List α) (acc res : List β),
      List.mapM.loop f as acc = .ok res → res.length = as.length + acc.length := by
  intro as
  induction as with
  | nil =>
    intro acc res h
    simp only [List.mapM.loop] at h
    cases h
    simp
  | cons a as ih =>
    intro acc res h
    simp only [List.mapM.loop] at h
    cases hfa : f a with
    | error e => rw [hfa] at h; exact absurd h (by simp [Bind.bind, Except.bind])
    | ok b =>
      rw [hfa] at h
      have := ih (b :: acc) res (by simpa [Bind.bind, Except.bind] using h)
      simp only [List.length_cons] at this
      simp [this]
      omega

/-- `mapM` in the `Except` monad produces one output per input. -/
theorem mapM_except_length {α β E : Type} (f : α → Except E β) (l : List α)
    (res : List β) (h : l.mapM f = .ok res) : res.length = l.length := by
  have := mapM_except_loop_length f l [] res (by simpa [List.mapM] using h)
  simpa using this

/-- C10 counterexample: on a batch of two terminal steps (with `done` and
`terminated` coinciding, reward scale 1.0) and a scoring function that
succeeds on its first call, returning the single score `[1]`, the two
implementations disagree: reward_transform.py's `reward[:, 0] += scores`
broadcasts the single score to both rows and succeeds, while
examples/ppo/utils.py's `reshape` of 1 score to 2 rows raises on all 3
attempts and aborts the batch. -/
theorem reward_impls_disagree_on_broadcast :
    (⟨[true, true], [true, true], [0, 0], [[4], [5]]⟩ : NextRecord).done =
      (⟨[true, true], [true, true], [0, 0], [[4], [5]]⟩ : NextRecord).terminated ∧
    smilesRewardForward Vc (fun _ _ => .ok [(1 : Rat)]) 1
      ⟨[true, true], [true, true], [0, 0], [[4], [5]]⟩ =
      .error (.scoringFailed .shapeMismatch) ∧
    smilesRewardForwardOld Vc (fun _ => .ok [(1 : Rat)])
      ⟨[true, true], [true, true], [0, 0], [[4], [5]]⟩ =
      .ok ⟨[true, true], [true, true], [1, 1], [[4], [5]]⟩ ∧
    smilesRewardForward Vc (fun _ _ => .ok [(1 : Rat)]) 1
      ⟨[true, true], [true, true], [0, 0], [[4], [5]]⟩ ≠
      smilesRewardForwardOld Vc (fun _ => .ok [(1 : Rat)])
        ⟨[true, true], [true, true], [0, 0], [[4], [5]]⟩ := by
  have h1 : smilesRewardForwardOld Vc (fun _ => .ok [(1 : Rat)])
      ⟨[true, true], [true, true], [0, 0], [[4], [5]]⟩ =
      .ok ⟨[true, true], [true, true], [(0 : Rat) + 1, (0 : Rat) + 1],
        [[4], [5]]⟩ := rfl
  refine ⟨rfl, rfl, ?_, fun h => Except.noConfusion h⟩
  rw [h1]
  norm_num

/-- C10 (amended): when `done` and `terminated` coincide at every step, the
batch has one reward entry and one token row per step, the scale is 1.0 and
the (pure) scoring function succeeds on its first call with one score per
scored text, the `SMILESReward` of examples/ppo/utils.py and the
`SMILESReward` of acegen/transforms/reward_transform.py produce identical
batches, hence identical reward values at every step. -/
theorem reward_impls_agree (v : SMILESVocabulary)
    (rf : List String → Except ScoringError (List Rat)) (next : NextRecord)
    (hdt : next.done = next.terminated)
    (hrlen : next.reward.length = next.done.length)
    (hsmlen : next.smiles.length = next.done.length)
    (hok : ∀ ts, ∃ l, rf ts = .ok l ∧ l.length = ts.length) :
    smilesRewardForward v (fun _ ts => rf ts) 1 next =
      smilesRewardForwardOld v rf next := by
  rw [smilesRewardForward, smilesRewardCall, smilesRewardForwardOld, ← hdt]
  by_cases hc : next.done.count true = 0
  · rw [if_pos hc, if_pos hc]
  · rw [if_neg hc, if_neg hc]
    cases hdecm : (selectMask next.done next.smiles).mapM
        (fun smi => v.decode smi [-1]) with
    | error e => simp only [hdecm]
    | ok texts =>
      simp only [hdecm]
      obtain ⟨l, hl, hllen⟩ := hok texts
      have htexts : texts.length = (selectMask next.done next.smiles).length :=
        mapM_except_length _ _ _ hdecm
      have hlen : l.length = (selectMask next.done next.reward).length := by
        rw [hllen, htexts, selectMask_length next.done next.smiles hsmlen,
          selectMask_length next.done next.reward hrlen]
      have hatt : (match rf texts with
          | Except.error e => (Except.error e : Except ScoringError (List Rat))
          | Except.ok scores =>
            if scores.length = (selectMask next.done next.reward).length then
              Except.ok scores
            else Except.error ScoringError.shapeMismatch) = Except.ok l := by
        rw [hl]
        exact if_pos hlen
      simp [retryScoring, maxAttempts, retryAux, hatt, hl, if_pos hlen,
        updateRewards_one]

/-- C10 witness: a batch with coinciding flags, consistent field lengths,
scale 1 and a successful one-score-per-text scoring function is handled
identically by both transforms. -/
theorem reward_impls_agree_witness :
    smilesRewardForward Vc
      (fun _ ts => (fun ts2 => .ok (ts2.map (fun _ => (1 : Rat)))) ts) 1
      ⟨[true, false], [true, false], [0, 0], [[4], [5]]⟩ =
      smilesRewardForwardOld Vc (fun ts => .ok (ts.map (fun _ => (1 : Rat))))
        ⟨[true, false], [true, false], [0, 0], [[4], [5]]⟩ :=
  reward_impls_agree Vc (fun ts => .ok (ts.map (fun _ => (1 : Rat))))
    ⟨[true, false], [true, false], [0, 0], [[4], [5]]⟩ rfl rfl rfl
    (fun ts => ⟨ts.map (fun _ => (1 : Rat)), rfl, by simp⟩)

/-- The repetition filter keeps one output entry per input entry. -/
theorem penaliseRepeatedSMILES_length (penalty : Rat) :
    ∀ (archive : List String) (items : List (Bool × String × Rat)),
      (penaliseRepeatedSMILES penalty archive items).2.1.length = items.length := by
  intro archive items
  induction items generalizing archive with
  | nil => rfl
  | cons e rest ih =>
    obtain ⟨d, s, r⟩ := e
    by_cases hd : d = true
    · subst hd
      by_cases hs : s ∈ archive
      · simp [penaliseRepeatedSMILES, hs, ih]
      · simp [penaliseRepeatedSMILES, hs, ih]
    · have hd2 : d = false := by simpa using hd
      subst hd2
      simp [penaliseRepeatedSMILES, ih]

/-- The archive only grows while the repetition filter runs. -/
theorem penaliseRepeatedSMILES_archive_mono (penalty : Rat) :
    ∀ (archive : List String) (items : List (Bool × String × Rat)) (x : String),
      x ∈ archive → x ∈ (penaliseRepeatedSMILES penalty archive items).1 := by
  intro archive items
  induction items generalizing archive with
  | nil => intro x hx; exact hx
  | cons e rest ih =>
    obtain ⟨d, s, r⟩ := e
    intro x hx
    by_cases hd : d = true
    · subst hd
      by_cases hs : s ∈ archive
      · simp only [penaliseRepeatedSMILES, if_pos rfl, if_pos hs]
        exact ih archive x hx
      · simp only [penaliseRepeatedSMILES, if_pos rfl, if_neg hs]
        exact ih (s :: archive) x (List.mem_cons_of_mem _ hx)
    · have hd2 : d = false := by simpa using hd
      subst hd2
      simp only [penaliseRepeatedSMILES, Bool.false_eq_true, if_false]
      exact ih archive x hx

/-- Once a text is in the archive, any later terminal occurrence of it in
the batch is penalised. -/
theorem penaliseRepeatedSMILES_after_seen (penalty : Rat) (s : String) :
    ∀ (mid : List (Bool × String × Rat)) (archive : List String)
      (post : List (Bool × String × Rat)) (r2 : Rat),
      s ∈ archive →
      (penaliseRepeatedSMILES penalty archive
        (mid ++ (true, s, r2) :: post)).2.1.getD mid.length (false, "", 0) =
        (true, s, penalty) := by
  intro mid
  induction mid with
  | nil =>
    intro archive post r2 hs
    simp [penaliseRepeatedSMILES, hs]
  | cons e rest ih =>
    intro archive post r2 hs
    obtain ⟨d, t, r⟩ := e
    by_cases hd : d = true
    · subst hd
      by_cases ht : t ∈ archive
      · simp only [List.cons_append, penaliseRepeatedSMILES, if_pos rfl, if_pos ht]
        simpa using ih archive post r2 hs
      · simp only [List.cons_append, penaliseRepeatedSMILES, if_pos rfl, if_neg ht]
        simpa using ih (t :: archive) post r2 (List.mem_cons_of_mem _ hs)
    · have hd2 : d = false := by simpa using hd
      subst hd2
      simp only [List.cons_append, penaliseRepeatedSMILES, Bool.false_eq_true, if_false]
      simpa using ih archive post r2 hs

/-- C9: in a batch containing the same decoded text at two terminal
positions (the text not already in the archive, and the earlier position
its first terminal occurrence), processing in batch-index order keeps the
first occurrence's reward unpenalised and inserts the text into the
archive, while the second occurrence's reward is replaced by the configured
penalty. -/
theorem repeated_smiles_first_novel_second_penalised (penalty : Rat)
    (archive : List String) (pre mid post : List (Bool × String × Rat))
    (s : String) (r1 r2 : Rat)
    (hnew : s ∉ archive)
    (hpre : ∀ e ∈ pre, e.1 = true → e.2.1 ≠ s) :
    (penaliseRepeatedSMILES penalty archive
        (pre ++ (true, s, r1) :: mid ++ (true, s, r2) :: post)).2.1.length =
      (pre ++ (true, s, r1) :: mid ++ (true, s, r2) :: post).length ∧
    (penaliseRepeatedSMILES penalty archive
        (pre ++ (true, s, r1) :: mid ++ (true, s, r2) :: post)).2.1.getD
      pre.length (false, "", 0) = (true, s, r1) ∧
    (penaliseRepeatedSMILES penalty archive
        (pre ++ (true, s, r1) :: mid ++ (true, s, r2) :: post)).2.1.getD
      (pre.length + 1 + mid.length) (false, "", 0) = (true, s, penalty) ∧
    s ∈ (penaliseRepeatedSMILES penalty archive
        (pre ++ (true, s, r1) :: mid ++ (true, s, r2) :: post)).1 := by
  refine ⟨penaliseRepeatedSMILES_length penalty archive _, ?_⟩
  induction pre generalizing archive with
  | nil =>
    simp only [List.nil_append, List.length_nil]
    refine ⟨?_, ?_, ?_⟩
    · simp [penaliseRepeatedSMILES, hnew]
    · simp only [penaliseRepeatedSMILES, if_pos rfl, if_neg hnew]
      have := penaliseRepeatedSMILES_after_seen penalty s mid (s :: archive) post r2
        (List.mem_cons_self s archive)
      simpa [Nat.add_comm] using this
    · simp only [penaliseRepeatedSMILES, if_pos rfl, if_neg hnew]
      exact penaliseRepeatedSMILES_archive_mono penalty (s :: archive) _ s
        (List.mem_cons_self s archive)
  | cons e pre ih =>
    obtain ⟨d, t, r⟩ := e
    have hpre2 : ∀ e ∈ pre, e.1 = true → e.2.1 ≠ s :=
      fun e he => hpre e (List.mem_cons_of_mem _ he)
    by_cases hd : d = true
    · subst hd
      have hts : t ≠ s := hpre (true, t, r) (List.mem_cons_self _ pre) rfl
      by_cases ht : t ∈ archive
      · have hrec := ih archive hnew hpre2
        simp only [List.cons_append, penaliseRepeatedSMILES, if_pos rfl, if_pos ht]
        refine ⟨by simpa using hrec.1, by simpa [Nat.add_right_comm] using hrec.2.1,
          hrec.2.2⟩
      · have hnew2 : s ∉ t :: archive := by
          intro h
          rcases List.mem_cons.mp h with h1 | h1
          · exact hts h1.symm
          · exact hnew h1
        have hrec := ih (t :: archive) hnew2 hpre2
        simp only [List.cons_append, penaliseRepeatedSMILES, if_pos rfl, if_neg ht]
        refine ⟨by simpa using hrec.1, by simpa [Nat.add_right_comm] using hrec.2.1,
          hrec.2.2⟩
    · have hd2 : d = false := by simpa using hd
      subst hd2
      have hrec := ih archive hnew hpre2
      simp only [List.cons_append, penaliseRepeatedSMILES, Bool.false_eq_true, if_false]
      refine ⟨by simpa using hrec.1, by simpa [Nat.add_right_comm] using hrec.2.1,
        hrec.2.2⟩

/-- C9 witness: penalty -1, empty-prefix batch
`[(true, "N", 5), (false, "Z", 7), (true, "CC", 2), (true, "O", 1), (true, "CC", 3)]`
over archive `["X"]`: the first `"CC"` keeps reward 2 and enters the
archive, the second is replaced by the penalty. -/
theorem repeated_smiles_witness :
    (penaliseRepeatedSMILES (-1) ["X"]
        ([(true, "N", 5), (false, "Z", 7)] ++ (true, "CC", 2) ::
          [(true, "O", 1)] ++ (true, "CC", 3) :: [])).2.1.length =
      ([(true, "N", 5), (false, "Z", 7)] ++ (true, "CC", 2) ::
        [(true, "O", 1)] ++ (true, "CC", 3) :: []).length ∧
    (penaliseRepeatedSMILES (-1) ["X"]
        ([(true, "N", 5), (false, "Z", 7)] ++ (true, "CC", 2) ::
          [(true, "O", 1)] ++ (true, "CC", 3) :: [])).2.1.getD
      [(true, "N", 5), (false, "Z", 7)].length (false, "", 0) = (true, "CC", 2) ∧
    (penaliseRepeatedSMILES (-1) ["X"]
        ([(true, "N", 5), (false, "Z", 7)] ++ (true, "CC", 2) ::
          [(true, "O", 1)] ++ (true, "CC", 3) :: [])).2.1.getD
      ([(true, "N", 5), (false, "Z", 7)].length + 1 + [(true, "O", 1)].length)
      (false, "", 0) = (true, "CC", -1) ∧
    "CC" ∈ (penaliseRepeatedSMILES (-1) ["X"]
        ([(true, "N", 5), (false, "Z", 7)] ++ (true, "CC", 2) ::
          [(true, "O", 1)] ++ (true, "CC", 3) :: [])).1 :=
  repeated_smiles_first_novel_second_penalised (-1) ["X"]
    [(true, "N", 5), (false, "Z", 7)] [(true, "O", 1)] [] "CC" 2 3
    (by decide) (by decide)
